import Mathlib

set_option maxRecDepth 200000
set_option maxHeartbeats 2000000

/-!
A verification development for a small single-node blockchain engine
(`addblock.py`): a `Block` record computing its own SHA-256 digests, and a
`Blockchain` engine holding the accepted chain and the pool of unconfirmed
transactions, with proof-of-work mining and admission validation.

The embedding is executable: SHA-256 is implemented over `Nat` byte lists,
the mutable engine is explicit state passing, and the unbounded
proof-of-work loop is modelled with fuel (`none` = the loop did not finish
within the given fuel).
-/

namespace AddBlock

/-! ## SHA-256 over byte lists -/

/-- Truncate to a 32-bit word. -/
def w32 (n : Nat) : Nat := n % 4294967296

/-- Rotate the low 32 bits of `x` to the right by `n`. -/
def rotWord (x n : Nat) : Nat := w32 ((x >>> n) ||| (x <<< (32 - n)))

def bigSigma0 (x : Nat) : Nat := (rotWord x 2) ^^^ (rotWord x 13) ^^^ (rotWord x 22)

def bigSigma1 (x : Nat) : Nat := (rotWord x 6) ^^^ (rotWord x 11) ^^^ (rotWord x 25)

def smallSigma0 (x : Nat) : Nat := (rotWord x 7) ^^^ (rotWord x 18) ^^^ (x >>> 3)

def smallSigma1 (x : Nat) : Nat := (rotWord x 17) ^^^ (rotWord x 19) ^^^ (x >>> 10)

def chF (x y z : Nat) : Nat := (x &&& y) ^^^ ((x ^^^ 4294967295) &&& z)

def majF (x y z : Nat) : Nat := (x &&& y) ^^^ (x &&& z) ^^^ (y &&& z)

/-- SHA-256 round constants. -/
def K : List Nat := [1116352408, 1899447441, 3049323471, 3921009573,
  961987163, 1508970993, 2453635748, 2870763221, 3624381080, 310598401,
  607225278, 1426881987, 1925078388, 2162078206, 2614888103, 3248222580,
  3835390401, 4022224774, 264347078, 604807628, 770255983, 1249150122,
  1555081692, 1996064986, 2554220882, 2821834349, 2952996808, 3210313671,
  3336571891, 3584528711, 113926993, 338241895, 666307205, 773529912,
  1294757372, 1396182291, 1695183700, 1986661051, 2177026350, 2456956037,
  2730485921, 2820302411, 3259730800, 3345764771, 3516065817, 3600352804,
  4094571909, 275423344, 430227734, 506948616, 659060556, 883997877,
  958139571, 1322822218, 1537002063, 1747873779, 1955562222, 2024104815,
  2227730452, 2361852424, 2428436474, 2756734187, 3204031479, 3329325298]

/-- SHA-256 initial hash value. -/
def H0 : List Nat := [1779033703, 3144134277, 1013904242, 2773480762,
  1359893119, 2600822924, 528734635, 1541459225]

/-- Big-endian byte encoding of `n` on `k` bytes. -/
def beBytes : Nat → Nat → List Nat
  | 0, _ => []
  | k + 1, n => beBytes k (n >>> 8) ++ [n &&& 255]

/-- SHA-256 message padding: a `0x80` byte, then zero bytes, then the bit
length on 8 big-endian bytes, bringing the total to a 64-byte multiple. -/
def padBytes (msg : List Nat) : List Nat :=
  let len := msg.length
  let zeros := (64 - ((len + 9) % 64)) % 64
  msg ++ [128] ++ List.replicate zeros 0 ++ beBytes 8 (len * 8)

/-- Split a byte list into 64-byte chunks, with a structural counter so the
definition reduces in the kernel. -/
def chunksAux : Nat → List Nat → List (List Nat)
  | 0, _ => []
  | _, [] => []
  | fuel + 1, b :: bs => ((b :: bs).take 64) :: chunksAux fuel ((b :: bs).drop 64)

/-- Split a byte list into 64-byte chunks. -/
def chunks64 (l : List Nat) : List (List Nat) := chunksAux l.length l

/-- Pack four big-endian bytes into one 32-bit word, over the whole list. -/
def toWords : List Nat → List Nat
  | a :: b :: c :: d :: rest =>
    ((a <<< 24) ||| (b <<< 16) ||| (c <<< 8) ||| d) :: toWords rest
  | _ => []

/-- Message-schedule extension, building the reversed schedule; the
accumulator's head is the most recent word. -/
def schedRev : Nat → List Nat → List Nat
  | 0, acc => acc
  | k + 1, acc =>
    let w := w32 (acc.getD 15 0 + smallSigma0 (acc.getD 14 0) + acc.getD 6 0 +
      smallSigma1 (acc.getD 1 0))
    schedRev k (w :: acc)

/-- The 64-word message schedule of one block. -/
def schedule (ws : List Nat) : List Nat := (schedRev 48 ws.reverse).reverse

/-- One compression round on the state `[a, b, c, d, e, f, g, h]`. -/
def compressRound (st : List Nat) (kw : Nat × Nat) : List Nat :=
  match st with
  | [a, b, c, d, e, f, g, h] =>
    let t1 := w32 (h + bigSigma1 e + chF e f g + kw.1 + kw.2)
    let t2 := w32 (bigSigma0 a + majF a b c)
    [w32 (t1 + t2), a, b, c, w32 (d + t1), e, f, g]
  | other => other

/-- Compress one 64-byte chunk into the running state. -/
def compressBlock (st : List Nat) (chunk : List Nat) : List Nat :=
  let final := (K.zip (schedule (toWords chunk))).foldl compressRound st
  (st.zip final).map (fun p => w32 (p.1 + p.2))

/-- SHA-256 digest of a byte list, as eight 32-bit words. -/
def sha256Words (msg : List Nat) : List Nat :=
  (chunks64 (padBytes msg)).foldl compressBlock H0

def hexDigit (n : Nat) : Char :=
  if n < 10 then Char.ofNat (48 + n) else Char.ofNat (87 + n)

/-- Lowercase hexadecimal rendering of one 32-bit word on 8 characters. -/
def hex8 (x : Nat) : List Char :=
  (List.range 8).map (fun i => hexDigit ((x >>> ((7 - i) * 4)) &&& 15))

def wordsToHex (ws : List Nat) : String := String.mk ((ws.map hex8).flatten)

/-- UTF-8 encoding of one character. -/
def utf8Bytes (c : Char) : List Nat :=
  let n := c.toNat
  if n < 128 then [n]
  else if n < 2048 then [192 ||| (n >>> 6), 128 ||| (n &&& 63)]
  else if n < 65536 then
    [224 ||| (n >>> 12), 128 ||| ((n >>> 6) &&& 63), 128 ||| (n &&& 63)]
  else
    [240 ||| (n >>> 18), 128 ||| ((n >>> 12) &&& 63),
      128 ||| ((n >>> 6) &&& 63), 128 ||| (n &&& 63)]

/-- UTF-8 encoding of a string, as `str.encode()` does. -/
def encodeStr (s : String) : List Nat := (s.data.map utf8Bytes).flatten

/-- `hashlib.sha256(s.encode()).hexdigest()`. -/
def sha256hex (s : String) : String := wordsToHex (sha256Words (encodeStr s))

/-! ## The Block record

Python's `Block` object: all seven attributes, including the two digests
stored at construction time. Attributes stay mutable in Python, so the
structure keeps `nonce` and `hash` as plain fields updated by the engine.
The timestamp is modelled as the string `str(timestamp)` contributes to the
hash input (the caller supplies `time.time()`, an external input). -/

structure Block where
  index : Nat
  transactions : List String
  timestamp : String
  previous_hash : String
  nonce : Nat
  transactions_hash : String
  hash : String
deriving DecidableEq, Repr

namespace Block

/-- `Block.compute_transactions_hash`: SHA-256 of the concatenation of the
transaction payloads, joined with the empty separator. -/
def compute_transactions_hash (b : Block) : String :=
  sha256hex (String.join b.transactions)

/-- `Block.compute_hash`: SHA-256 of
`f"{index}{timestamp}{previous_hash}{nonce}{transactions_hash}"`. -/
def compute_hash (b : Block) : String :=
  sha256hex (toString b.index ++ b.timestamp ++ b.previous_hash ++
    toString b.nonce ++ b.transactions_hash)

/-- `Block.__init__`: stores the five inputs, then computes
`transactions_hash` first and `hash` second (the main hash reads the stored
`transactions_hash`). -/
def init (index : Nat) (transactions : List String) (timestamp : String)
    (previous_hash : String) (nonce : Nat) : Block :=
  let b0 : Block := ⟨index, transactions, timestamp, previous_hash, nonce, "", ""⟩
  let b1 : Block := { b0 with transactions_hash := b0.compute_transactions_hash }
  { b1 with hash := b1.compute_hash }

end Block

/-! ## The Blockchain engine

Explicit state passing replaces the mutation of `self`: each operation
returns the updated engine (and its Python return value). -/

structure Blockchain where
  unconfirmed_transactions : List String
  chain : List Block
deriving DecidableEq, Repr

/-- Python's `str.startswith`: the prefix test on the character sequences.
(Equivalent to `String.startsWith`, but defined structurally so that it
reduces in the kernel.) -/
def startswith (s pre : String) : Bool := pre.data.isPrefixOf s.data

namespace Blockchain

/-- Class attribute `difficulty = 4`: number of leading zeros required. -/
def difficulty : Nat := 4

/-- `Blockchain.create_genesis_block`: appends `Block(0, [], time.time(), "0")`
to the chain; the genesis timestamp is the external `time.time()` input. -/
def create_genesis_block (timestamp : String) (s : Blockchain) : Blockchain :=
  let genesis_block := Block.init 0 [] timestamp "0" 0
  { s with chain := s.chain ++ [genesis_block] }

/-- `Blockchain.__init__`: empty pool, empty chain, then genesis. -/
def init (timestamp : String) : Blockchain :=
  create_genesis_block timestamp { unconfirmed_transactions := [], chain := [] }

/-- `Blockchain.is_valid_proof`:
`block.hash.startswith('0' * difficulty) and block.hash == block.compute_hash()`. -/
def is_valid_proof (block : Block) : Bool :=
  startswith block.hash (String.mk (List.replicate difficulty '0')) &&
    block.hash == block.compute_hash

/-- `Blockchain.add_block`: reject when the chain is non-empty and the
block's `previous_hash` differs from the tip's `hash`; reject when
`is_valid_proof` fails; otherwise append and report `True`. -/
def add_block (s : Blockchain) (block : Block) : Bool × Blockchain :=
  if (match s.chain.getLast? with
      | some last => block.previous_hash != last.hash
      | none => false) then (false, s)
  else if !(is_valid_proof block) then (false, s)
  else (true, { s with chain := s.chain ++ [block] })

/-- `Blockchain.proof_of_work`: the while loop, fuel-bounded. Each iteration
increments `nonce`, then recomputes `hash`; when the stored hash satisfies
the difficulty target the loop stops and `block.hash` is returned. `none`
means the loop did not terminate within `fuel` iterations. -/
def proof_of_work (fuel : Nat) (block : Block) : Option (String × Block) :=
  if startswith block.hash (String.mk (List.replicate difficulty '0')) then
    some (block.hash, block)
  else
    match fuel with
    | 0 => none
    | f + 1 =>
      let b1 : Block := { block with nonce := block.nonce + 1 }
      let b2 : Block := { b1 with hash := b1.compute_hash }
      proof_of_work f b2

/-- `Blockchain.add_new_transaction`: append the payload to the pool. -/
def add_new_transaction (s : Blockchain) (transaction : String) : Blockchain :=
  { s with unconfirmed_transactions := s.unconfirmed_transactions ++ [transaction] }

/-- `Blockchain.mine`: returns `some (none, s)` for the `return False`
branch on an empty pool, `some (some block, s2)` when a block is produced,
and `none` when the embedded proof-of-work loop exhausts its fuel (the
Python loop would still be running). The fresh `time.time()` is the
`timestamp` input. -/
def mine (fuel : Nat) (timestamp : String) (s : Blockchain) :
    Option (Option Block × Blockchain) :=
  if s.unconfirmed_transactions.isEmpty then some (none, s)
  else
    match s.chain.getLast? with
    | none => none
    | some last_block =>
      let new_block := Block.init (last_block.index + 1)
        s.unconfirmed_transactions timestamp last_block.hash 0
      match proof_of_work fuel new_block with
      | none => none
      | some (h, nb) =>
        let nb2 : Block := { nb with hash := h }
        let s2 := (add_block s nb2).2
        some (some nb2, { s2 with unconfirmed_transactions := [] })

end Blockchain

open Blockchain

/-! ## Derived notions used by the statements -/

/-- Number of leading `'0'` characters of a string. -/
def leading_zero_count (s : String) : Nat :=
  (s.data.takeWhile (fun c => c == '0')).length

/-- The main hash the block would have at nonce `n`, every other field
unchanged (`hash` is not an input of `compute_hash`). -/
def hash_at_nonce (b : Block) (n : Nat) : String :=
  Block.compute_hash { b with nonce := n }

/-- The linkage relation between consecutive blocks. -/
def linked (a b : Block) : Prop := b.previous_hash = a.hash

/-- The chain-linkage invariant in index form: for all `i > 0`,
`chain[i].previous_hash == chain[i-1].hash`. -/
def chain_linked (c : List Block) : Prop :=
  ∀ i : Nat, ∀ h : i + 1 < c.length,
    (c.get ⟨i + 1, h⟩).previous_hash = (c.get ⟨i, Nat.lt_of_succ_lt h⟩).hash

/-- The Bool the linkage test of `add_block` evaluates (negated):
vacuously true on an empty chain. -/
def linkage_ok (s : Blockchain) (block : Block) : Bool :=
  match s.chain.getLast? with
  | some last => block.previous_hash == last.hash
  | none => true

/-- Engine states reachable from a fresh engine by any sequence of
`add_new_transaction`, `mine` and `add_block` calls. -/
inductive Reachable : Blockchain → Prop where
  | init (timestamp : String) : Reachable (Blockchain.init timestamp)
  | tx (s : Blockchain) (t : String) : Reachable s →
      Reachable (add_new_transaction s t)
  | mined (s : Blockchain) (fuel : Nat) (ts : String) (r : Option Block)
      (s2 : Blockchain) : Reachable s → mine fuel ts s = some (r, s2) →
      Reachable s2
  | blk (s : Blockchain) (b : Block) : Reachable s →
      Reachable (add_block s b).2

/-! ## Concrete states used by the witnesses -/

/-- A fresh engine's genesis block, with `"1700000000.0"` as the sampled
`time.time()` value. -/
def demoGenesis : Block := Block.init 0 [] "1700000000.0" "0" 0

/-- A fresh engine. -/
def demoState0 : Blockchain := Blockchain.init "1700000000.0"

/-- The fresh engine after two transaction submissions. -/
def demoState1 : Blockchain :=
  add_new_transaction (add_new_transaction demoState0 "A pays B 1 unit")
    "B pays C 2 units"

/-- The block `mine` builds from `demoState1` at timestamp
`"1700000001.087379"`; this timestamp was chosen so that the difficulty
target is already met at nonce `0`. -/
def demoMined : Block :=
  Block.init 1 ["A pays B 1 unit", "B pays C 2 units"] "1700000001.087379"
    demoGenesis.hash 0

/-- The engine after that mine call. -/
def demoState2 : Blockchain :=
  { unconfirmed_transactions := [], chain := demoState0.chain ++ [demoMined] }

/-- A block whose stored `hash` field was overwritten with `"0000"` after
construction: it meets the difficulty target without matching a
recomputation of `compute_hash`. -/
def tamperedBlock : Block := ⟨0, [], "t", "p", 7, "x", "0000"⟩

/-- A block whose `previous_hash` matches no chain tip. -/
def staleBlock : Block := ⟨1, [], "t", "nomatch", 0, "x", "deadbeef"⟩

/-! ## Helper lemmas -/

theorem Block.init_def (i : Nat) (t : List String) (ts p : String) (n : Nat) :
    Block.init i t ts p n =
      ⟨i, t, ts, p, n, sha256hex (String.join t),
        sha256hex (toString i ++ ts ++ p ++ toString n ++
          sha256hex (String.join t))⟩ := rfl

theorem Block.init_consistent (i : Nat) (t : List String) (ts p : String)
    (n : Nat) :
    (Block.init i t ts p n).hash = (Block.init i t ts p n).compute_hash := rfl

theorem Block.compute_hash_set_hash (b : Block) (h : String) :
    ({ b with hash := h } : Block).compute_hash = b.compute_hash := rfl

theorem Block.set_hash_self (b : Block) : ({ b with hash := b.hash } : Block) = b := rfl

theorem replicate_isPrefixOf_iff (d : Nat) (l : List Char) :
    ((List.replicate d '0').isPrefixOf l = true) ↔
      d ≤ (l.takeWhile (fun c => c == '0')).length := by
  induction d generalizing l with
  | zero => simp [List.isPrefixOf]
  | succ d ih =>
    cases l with
    | nil => simp [List.replicate_succ, List.isPrefixOf]
    | cons c cs =>
      by_cases hc : c = '0'
      · subst hc
        simp [List.replicate_succ, List.isPrefixOf, List.takeWhile, ih,
          Nat.succ_le_succ_iff]
      · have hb : (c == '0') = false := by simp [hc]
        have hb2 : ('0' == c) = false := by
          simp only [beq_eq_false_iff_ne, ne_eq]
          exact fun h => hc h.symm
        simp [List.replicate_succ, List.isPrefixOf, List.takeWhile, hb, hb2]

theorem startswith_zeros_iff (s : String) (d : Nat) :
    startswith s (String.mk (List.replicate d '0')) = true ↔
      d ≤ leading_zero_count s := by
  unfold startswith leading_zero_count
  exact replicate_isPrefixOf_iff d s.data

theorem linkage_ok_iff (s : Blockchain) (block : Block) :
    linkage_ok s block = true ↔
      ∀ last, s.chain.getLast? = some last →
        block.previous_hash = last.hash := by
  unfold linkage_ok
  cases h : s.chain.getLast? with
  | none => simp
  | some last => simp [beq_iff_eq]

theorem add_block_eq (s : Blockchain) (block : Block) :
    add_block s block =
      if linkage_ok s block && is_valid_proof block then
        (true, { s with chain := s.chain ++ [block] })
      else (false, s) := by
  unfold add_block linkage_ok
  cases h : s.chain.getLast? with
  | none => cases hv : is_valid_proof block <;> simp [hv]
  | some last =>
    by_cases hp : block.previous_hash = last.hash
    · cases hv : is_valid_proof block <;> simp [hp, bne, hv]
    · simp [hp, bne, beq_false_of_ne hp]

/-- The body of the proof-of-work loop: increment the nonce, then refresh
the stored hash. -/
def pow_step (b : Block) : Block :=
  let b1 : Block := { b with nonce := b.nonce + 1 }
  { b1 with hash := b1.compute_hash }

theorem pow_step_nonce (b : Block) : (pow_step b).nonce = b.nonce + 1 := rfl

theorem pow_step_consistent (b : Block) :
    (pow_step b).hash = (pow_step b).compute_hash := by
  simp only [pow_step, Block.compute_hash]

theorem hash_at_nonce_pow_step (b : Block) (m : Nat) :
    hash_at_nonce (pow_step b) m = hash_at_nonce b m := by
  simp only [hash_at_nonce, pow_step, Block.compute_hash]

/-- What one run of the proof-of-work loop guarantees: the returned string
is the final stored hash, the final stored hash meets the target, all
fields except `nonce` and `hash` are preserved, the nonce never decreases,
and hash/`compute_hash` consistency is preserved. -/
theorem proof_of_work_out (fuel : Nat) (b : Block) (r : String) (b2 : Block)
    (h : proof_of_work fuel b = some (r, b2)) :
    r = b2.hash ∧
    startswith b2.hash (String.mk (List.replicate difficulty '0')) = true ∧
    b2.index = b.index ∧ b2.transactions = b.transactions ∧
    b2.timestamp = b.timestamp ∧ b2.previous_hash = b.previous_hash ∧
    b2.transactions_hash = b.transactions_hash ∧ b.nonce ≤ b2.nonce ∧
    (b.hash = b.compute_hash → b2.hash = b2.compute_hash) := by
  induction fuel generalizing b with
  | zero =>
    unfold proof_of_work at h
    split at h
    case isTrue hcond =>
      simp only [Option.some.injEq, Prod.mk.injEq] at h
      obtain ⟨hr, hb⟩ := h
      subst hb; subst hr
      exact ⟨rfl, hcond, rfl, rfl, rfl, rfl, rfl, Nat.le_refl _, fun hc => hc⟩
    case isFalse hcond => exact Option.noConfusion h
  | succ f ih =>
    unfold proof_of_work at h
    split at h
    case isTrue hcond =>
      simp only [Option.some.injEq, Prod.mk.injEq] at h
      obtain ⟨hr, hb⟩ := h
      subst hb; subst hr
      exact ⟨rfl, hcond, rfl, rfl, rfl, rfl, rfl, Nat.le_refl _, fun hc => hc⟩
    case isFalse hcond =>
      have h' : proof_of_work f (pow_step b) = some (r, b2) := h
      obtain ⟨h1, h2, h3, h4, h5, h6, h7, h8, h9⟩ := ih _ h'
      have hn := pow_step_nonce b
      exact ⟨h1, h2, h3, h4, h5, h6, h7, by omega,
        fun _ => h9 (pow_step_consistent b)⟩

/-- What one run of the proof-of-work loop guarantees about the nonce when
the input block's stored hash is consistent: the final nonce is the least
nonce from the starting one whose recomputed hash meets the target. -/
theorem proof_of_work_least (fuel : Nat) (b : Block) (r : String) (b2 : Block)
    (hcons : b.hash = b.compute_hash)
    (h : proof_of_work fuel b = some (r, b2)) :
    b.nonce ≤ b2.nonce ∧
    startswith (hash_at_nonce b b2.nonce)
      (String.mk (List.replicate difficulty '0')) = true ∧
    (∀ m, b.nonce ≤ m → m < b2.nonce →
      startswith (hash_at_nonce b m)
        (String.mk (List.replicate difficulty '0')) = false) := by
  induction fuel generalizing b with
  | zero =>
    unfold proof_of_work at h
    split at h
    case isTrue hcond =>
      simp only [Option.some.injEq, Prod.mk.injEq] at h
      obtain ⟨hr, hb⟩ := h
      subst hb
      refine ⟨Nat.le_refl _, ?_, ?_⟩
      · have he : hash_at_nonce b b.nonce = b.compute_hash := rfl
        rw [he, ← hcons]; exact hcond
      · intro m hm1 hm2; omega
    case isFalse hcond => exact Option.noConfusion h
  | succ f ih =>
    unfold proof_of_work at h
    split at h
    case isTrue hcond =>
      simp only [Option.some.injEq, Prod.mk.injEq] at h
      obtain ⟨hr, hb⟩ := h
      subst hb
      refine ⟨Nat.le_refl _, ?_, ?_⟩
      · have he : hash_at_nonce b b.nonce = b.compute_hash := rfl
        rw [he, ← hcons]; exact hcond
      · intro m hm1 hm2; omega
    case isFalse hcond =>
      have h' : proof_of_work f (pow_step b) = some (r, b2) := h
      obtain ⟨ih1, ih2, ih3⟩ := ih (pow_step b) (pow_step_consistent b) h'
      rw [pow_step_nonce] at ih1
      rw [hash_at_nonce_pow_step] at ih2
      simp only [hash_at_nonce_pow_step, pow_step_nonce] at ih3
      refine ⟨by omega, ih2, ?_⟩
      intro m hm1 hm2
      rcases Nat.eq_or_lt_of_le hm1 with hm | hm
      · have he : hash_at_nonce b m = b.compute_hash := by rw [← hm]; rfl
        rw [he, ← hcons]
        exact Bool.not_eq_true _ ▸ Bool.of_not_eq_true hcond
      · exact ih3 m (by omega) hm2

theorem chain_linked_iff_chain_rel (c : List Block) :
    chain_linked c ↔ List.Chain' linked c := by
  rw [List.chain'_iff_get]
  constructor
  · intro h i hi
    exact h i (by omega)
  · intro h i hi
    exact h i (by omega)

theorem chain_linked_one (b : Block) : chain_linked [b] := by
  intro i h
  simp only [List.length_cons, List.length_nil] at h
  omega

theorem chain_linked_append (c : List Block) (b : Block)
    (hc : chain_linked c)
    (hb : ∀ last, c.getLast? = some last → b.previous_hash = last.hash) :
    chain_linked (c ++ [b]) := by
  rw [chain_linked_iff_chain_rel] at hc ⊢
  rw [List.chain'_append]
  refine ⟨hc, List.chain'_singleton b, ?_⟩
  intro x hx y hy
  simp only [List.head?_cons, Option.mem_def, Option.some.injEq] at hy
  subst hy
  rw [Option.mem_def] at hx
  exact hb x hx

theorem add_block_linked (s : Blockchain) (block : Block)
    (h : chain_linked s.chain) : chain_linked ((add_block s block).2.chain) := by
  rw [add_block_eq]
  by_cases hc : (linkage_ok s block && is_valid_proof block) = true
  · rw [if_pos hc]
    simp only [Bool.and_eq_true] at hc
    exact chain_linked_append s.chain block h ((linkage_ok_iff s block).1 hc.1)
  · rw [if_neg hc]; exact h

/-- The chain after any `mine` call that returns: either untouched, or the
chain `add_block` left behind for some candidate block. -/
theorem mine_chain (fuel : Nat) (ts : String) (s : Blockchain)
    (r : Option Block) (s2 : Blockchain)
    (hm : mine fuel ts s = some (r, s2)) :
    s2.chain = s.chain ∨ ∃ b, s2.chain = ((add_block s b).2).chain := by
  unfold mine at hm
  split at hm
  · simp only [Option.some.injEq, Prod.mk.injEq] at hm
    exact Or.inl (hm.2 ▸ rfl)
  · split at hm
    · exact Option.noConfusion hm
    · dsimp only at hm
      split at hm
      · exact Option.noConfusion hm
      · rename_i hashv nb heq2
        simp only [Option.some.injEq, Prod.mk.injEq] at hm
        exact Or.inr ⟨{ nb with hash := hashv }, by rw [← hm.2]⟩

theorem is_valid_proof_true (b : Block)
    (h1 : startswith b.hash (String.mk (List.replicate difficulty '0')) = true)
    (h2 : b.hash = b.compute_hash) : is_valid_proof b = true := by
  unfold is_valid_proof
  rw [h1, h2]
  simp

theorem add_block_true (s : Blockchain) (block : Block)
    (hl : linkage_ok s block = true) (hv : is_valid_proof block = true) :
    add_block s block = (true, { s with chain := s.chain ++ [block] }) := by
  rw [add_block_eq]; simp [hl, hv]

/-- C1: on a non-empty pool, a `mine` call that returns a block returns one
whose index is the tip's plus one, whose transactions are the pool contents
at call start, whose `previous_hash` is the tip's hash and whose hash meets
the difficulty target; the block is appended to the chain and the pool is
empty afterwards. -/
theorem mine_produces_valid_block (s : Blockchain) (last : Block) (fuel : Nat)
    (ts : String) (b : Block) (s2 : Blockchain)
    (hne : s.unconfirmed_transactions ≠ [])
    (hlast : s.chain.getLast? = some last)
    (hm : mine fuel ts s = some (some b, s2)) :
    b.index = last.index + 1 ∧
    b.transactions = s.unconfirmed_transactions ∧
    b.previous_hash = last.hash ∧
    startswith b.hash (String.mk (List.replicate difficulty '0')) = true ∧
    s2.chain = s.chain ++ [b] ∧
    s2.unconfirmed_transactions = [] := by
  unfold mine at hm
  split at hm
  case isTrue hemp => exact absurd (List.isEmpty_iff.1 hemp) hne
  case isFalse hemp =>
    split at hm
    case h_1 heq => rw [hlast] at heq; exact Option.noConfusion heq
    case h_2 last2 heq =>
      rw [hlast] at heq
      injection heq with heq
      subst heq
      dsimp only at hm
      split at hm
      case h_1 => exact Option.noConfusion hm
      case h_2 hashv nb hpow =>
        simp only [Option.some.injEq, Prod.mk.injEq] at hm
        obtain ⟨hb, hs2⟩ := hm
        obtain ⟨hr, htgt, hidx, htx, hts, hprev, htxh, hnon, hcons⟩ :=
          proof_of_work_out fuel _ hashv nb hpow
        have hb2 : ({ nb with hash := hashv } : Block) = nb := by
          rw [hr]
        rw [hb2] at hb hs2
        subst hb
        have hconsb : nb.hash = nb.compute_hash :=
          hcons (Block.init_consistent _ _ _ _ _)
        have hvalid : is_valid_proof nb = true := is_valid_proof_true nb htgt hconsb
        have hlink : linkage_ok s nb = true := by
          unfold linkage_ok
          rw [hlast, hprev]
          exact beq_self_eq_true _
        rw [add_block_true s nb hlink hvalid] at hs2
        subst hs2
        exact ⟨hidx, htx, hprev, htgt, rfl, rfl⟩

/-- C5: a mine cycle that reports failure leaves the engine exactly as it
was: nothing appended, the pending pool preserved. -/
theorem mine_failure_preserves_state (fuel : Nat) (ts : String)
    (s : Blockchain) (s2 : Blockchain)
    (hm : mine fuel ts s = some (none, s2)) : s2 = s := by
  unfold mine at hm
  split at hm
  · simp only [Option.some.injEq, Prod.mk.injEq] at hm
    exact hm.2.symm
  · split at hm
    · exact Option.noConfusion hm
    · dsimp only at hm
      split at hm
      · exact Option.noConfusion hm
      · simp only [Option.some.injEq, Prod.mk.injEq] at hm
        exact Option.noConfusion hm.1

/-- C6: calling `mine` on an empty pool reports failure and returns the
state unchanged. -/
theorem mine_empty_pool_noop (fuel : Nat) (ts : String) (s : Blockchain)
    (h : s.unconfirmed_transactions = []) :
    mine fuel ts s = some (none, s) := by
  unfold mine
  rw [if_pos]
  rw [h]
  rfl

/-- C2: in every engine state reachable from a fresh engine by
`add_new_transaction`, `mine` and `add_block` calls, every block's
`previous_hash` equals the previous block's `hash`. -/
theorem reachable_chain_linked (s : Blockchain) (hs : Reachable s) :
    chain_linked s.chain := by
  induction hs with
  | init ts => exact chain_linked_one _
  | tx s t hs ih => exact ih
  | mined s fuel ts r s2 hs hm ih =>
    rcases mine_chain fuel ts s r s2 hm with h | ⟨b, h⟩
    · rw [h]; exact ih
    · rw [h]; exact add_block_linked s b ih
  | blk s b hs ih => exact add_block_linked s b ih

/-- C3: `add_block` runs the linkage check (vacuous on an empty chain) and
the proof check; it succeeds exactly when both pass, appends exactly on
success, and returns the state unchanged with a `False` signal on any
failure (a total function: no exception). -/
theorem add_block_gate (s : Blockchain) (block : Block) :
    ((add_block s block).1 = false → (add_block s block).2 = s) ∧
    ((add_block s block).1 = true →
      (add_block s block).2 = { s with chain := s.chain ++ [block] }) ∧
    ((add_block s block).1 = true ↔
      (∀ last, s.chain.getLast? = some last →
        block.previous_hash = last.hash) ∧ is_valid_proof block = true) := by
  rw [add_block_eq]
  by_cases hc : (linkage_ok s block && is_valid_proof block) = true
  · rw [if_pos hc]
    simp only [Bool.and_eq_true] at hc
    refine ⟨fun h => Bool.noConfusion h, fun _ => rfl, ?_⟩
    exact ⟨fun _ => ⟨(linkage_ok_iff s block).1 hc.1, hc.2⟩, fun _ => rfl⟩
  · rw [if_neg hc]
    refine ⟨fun _ => rfl, fun h => Bool.noConfusion h, ?_⟩
    constructor
    · intro h; exact Bool.noConfusion h
    · rintro ⟨h1, h2⟩
      refine absurd ?_ hc
      rw [Bool.and_eq_true]
      exact ⟨(linkage_ok_iff s block).2 h1, h2⟩

/-- C4: `is_valid_proof` accepts exactly the blocks whose stored hash has
at least `difficulty` leading zero characters and equals a fresh
recomputation of `compute_hash`. -/
theorem is_valid_proof_characterization (block : Block) :
    is_valid_proof block = true ↔
      (difficulty ≤ leading_zero_count block.hash ∧
        block.hash = block.compute_hash) := by
  unfold is_valid_proof
  rw [Bool.and_eq_true, startswith_zeros_iff]
  simp [beq_iff_eq]

/-- C7: `compute_hash` is the SHA-256 hex digest of
`str(index) + str(timestamp) + previous_hash + str(nonce) +
transactions_hash`, concatenated with no separators. -/
theorem compute_hash_formula (b : Block) :
    b.compute_hash =
      sha256hex (toString b.index ++ b.timestamp ++ b.previous_hash ++
        toString b.nonce ++ b.transactions_hash) := rfl

/-- C8: `compute_transactions_hash` hashes the separator-free concatenation
of the payloads, so two transaction lists with the same concatenation get
the same transactions hash. -/
theorem transactions_hash_concat (b1 b2 : Block)
    (h : String.join b1.transactions = String.join b2.transactions) :
    b1.compute_transactions_hash = sha256hex (String.join b1.transactions) ∧
    b1.compute_transactions_hash = b2.compute_transactions_hash := by
  refine ⟨rfl, ?_⟩
  unfold Block.compute_transactions_hash
  rw [h]

/-- C9 as stated is false: on a block whose stored `hash` was tampered to
`"0000"` after construction, the loop exits at once, so the returned value
is not a fresh `compute_hash` recomputation, and the final nonce is not one
whose recomputed hash meets the target. -/
theorem proof_of_work_claim_counterexample :
    proof_of_work 0 tamperedBlock = some (tamperedBlock.hash, tamperedBlock) ∧
    tamperedBlock.hash ≠ tamperedBlock.compute_hash ∧
    startswith (hash_at_nonce tamperedBlock tamperedBlock.nonce)
      (String.mk (List.replicate difficulty '0')) = false := by
  refine ⟨by decide, by decide, by decide⟩

/-- C9 (amended): for a block whose stored hash is consistent with its
fields — true of every freshly constructed block, and the only way
`proof_of_work` is reached in this program — when the loop returns, the
final nonce is the smallest value from the starting nonce whose recomputed
hash meets the difficulty target (in particular a block already meeting the
target keeps its nonce), and the returned value equals the stored hash,
which equals a fresh `compute_hash` recomputation. -/
theorem proof_of_work_amended (fuel : Nat) (b : Block) (r : String)
    (b2 : Block) (hcons : b.hash = b.compute_hash)
    (h : proof_of_work fuel b = some (r, b2)) :
    b.nonce ≤ b2.nonce ∧
    startswith (hash_at_nonce b b2.nonce)
      (String.mk (List.replicate difficulty '0')) = true ∧
    (∀ m, b.nonce ≤ m → m < b2.nonce →
      startswith (hash_at_nonce b m)
        (String.mk (List.replicate difficulty '0')) = false) ∧
    r = b2.hash ∧ b2.hash = b2.compute_hash := by
  obtain ⟨h1, h2, h3⟩ := proof_of_work_least fuel b r b2 hcons h
  obtain ⟨hr, _, _, _, _, _, _, _, hc⟩ := proof_of_work_out fuel b r b2 h
  exact ⟨h1, h2, h3, hr, hc hcons⟩

/-- C10: `add_new_transaction` appends the payload to the pool and changes
nothing else: the chain (hence every accepted block and all its fields) is
untouched. -/
theorem add_new_transaction_frame (s : Blockchain) (t : String) :
    (add_new_transaction s t).unconfirmed_transactions =
      s.unconfirmed_transactions ++ [t] ∧
    (add_new_transaction s t).chain = s.chain := ⟨rfl, rfl⟩

/-! ## Witnesses on concrete states -/

/-- Blocks with different transaction splits but equal concatenation. -/
def demoSplitA : Block := Block.init 2 ["ab", "c"] "t2" "p2" 0

def demoSplitB : Block := Block.init 2 ["a", "bc"] "t2" "p2" 0

/-- The concrete mine call evaluated: at timestamp `"1700000001.087379"`
the candidate block meets the target at nonce `0`, so fuel `0` suffices. -/
theorem demo_mine_eq :
    mine 0 "1700000001.087379" demoState1 = some (some demoMined, demoState2) := by
  decide

theorem mine_produces_valid_block_witness :
    demoMined.index = demoGenesis.index + 1 ∧
    demoMined.transactions = demoState1.unconfirmed_transactions ∧
    demoMined.previous_hash = demoGenesis.hash ∧
    startswith demoMined.hash (String.mk (List.replicate difficulty '0')) = true ∧
    demoState2.chain = demoState1.chain ++ [demoMined] ∧
    demoState2.unconfirmed_transactions = [] :=
  mine_produces_valid_block demoState1 demoGenesis 0 "1700000001.087379"
    demoMined demoState2 (by decide) (by decide) demo_mine_eq

theorem reachable_chain_linked_witness :
    demoState2.chain.length = 2 ∧ chain_linked demoState2.chain :=
  ⟨by decide, reachable_chain_linked demoState2
    (Reachable.mined demoState1 0 "1700000001.087379" (some demoMined)
      demoState2
      (Reachable.tx _ _ (Reachable.tx _ _ (Reachable.init "1700000000.0")))
      demo_mine_eq)⟩

theorem add_block_gate_witness :
    (add_block demoState0 staleBlock).1 = false ∧
    (add_block demoState0 staleBlock).2 = demoState0 :=
  ⟨by decide, (add_block_gate demoState0 staleBlock).1 (by decide)⟩

theorem is_valid_proof_characterization_witness :
    is_valid_proof demoMined = true :=
  (is_valid_proof_characterization demoMined).2 ⟨by decide, by decide⟩

theorem mine_failure_preserves_state_witness :
    mine 3 "1700000002.0" demoState0 = some (none, demoState0) ∧
    demoState0 = demoState0 :=
  ⟨by decide,
    mine_failure_preserves_state 3 "1700000002.0" demoState0 demoState0
      (by decide)⟩

theorem mine_empty_pool_noop_witness :
    mine 5 "1700000003.0" demoState0 = some (none, demoState0) :=
  mine_empty_pool_noop 5 "1700000003.0" demoState0 (by decide)

theorem transactions_hash_concat_witness :
    demoSplitA.compute_transactions_hash =
      sha256hex (String.join demoSplitA.transactions) ∧
    demoSplitA.compute_transactions_hash =
      demoSplitB.compute_transactions_hash :=
  transactions_hash_concat demoSplitA demoSplitB (by decide)

theorem proof_of_work_amended_witness :
    demoMined.nonce ≤ demoMined.nonce ∧
    startswith (hash_at_nonce demoMined demoMined.nonce)
      (String.mk (List.replicate difficulty '0')) = true ∧
    (∀ m, demoMined.nonce ≤ m → m < demoMined.nonce →
      startswith (hash_at_nonce demoMined m)
        (String.mk (List.replicate difficulty '0')) = false) ∧
    demoMined.hash = demoMined.hash ∧
    demoMined.hash = demoMined.compute_hash :=
  proof_of_work_amended 0 demoMined demoMined.hash demoMined (by decide)
    (by decide)

end AddBlock
